import Mathlib

/-
Verification development for the RadioStation deduplication and bank-filling
core (app/hash_manager.py, app/downloader.py, app/pipeline.py).

The Python code is shallowly embedded: pure functions become Lean functions,
the SQLite-backed ledger becomes explicit state passing over row lists, the
bank-assignment loop becomes a fold over the per-candidate scoring outcomes
(the CLAP scorer and the network downloads are external collaborators, so
their results enter the model as oracle inputs).  Machine text is modelled as
`List Char`; audio clip positions and durations are naturals (milliseconds /
seconds exactly as in the source).
-/

namespace RadioStation

/-! ## Bank assignment loop (app/pipeline.py)

`run_pipeline` keeps three pieces of per-theme mutable state:
`results[theme]` (filled counts, initialised from `_count_in_bank`),
`retries[theme]`, and the bank directories themselves.  `PState.banks t` is
the number of `.wav` files in theme `t`'s bank directory; `deletedFiles`
counts candidate files removed by `cand.unlink` in the below-threshold branch.
-/

structure PState where
  results : String → Nat
  retries : String → Nat
  banks : String → Nat
  deletedFiles : Nat

/-- Pointwise map update, mirroring `results[theme] = v` on a Python dict. -/
def upd (f : String → Nat) (k : String) (v : Nat) : String → Nat :=
  fun t => if t = k then v else f t

/-- Outcome of `scoring.best_theme_for_wav` as observed by
`_assign_with_scoring`: an exception, a falsy result, or a `(name, score)`
pair whose score may be `None`. -/
inductive ScoringRes where
  | err : ScoringRes
  | noRes : ScoringRes
  | scored : String → Rat → ScoringRes
  | scoredNone : String → ScoringRes

/-- `_assign_with_scoring` (pipeline.py:69-92).  `themes` is the list the
caller builds as `[target_theme] + [t for t in theme_names if t != target]`,
so `themes[0]` is the target theme.  Returns `(best_theme?, score?)`;
`none` for the theme means the below-threshold discard. -/
def assign_with_scoring (enabled : Bool) (themes : List String) (minSim : Rat)
    (r : ScoringRes) : Option String × Option Rat :=
  if enabled then
    match r with
    | .scored name s => if s < minSim then (none, some s) else (some name, some s)
    | .scoredNone name => (some name, none)
    | .err => (some (themes.headD ""), none)
    | .noRes => (some (themes.headD ""), none)
  else (some (themes.headD ""), none)

/-- The theme list `run_pipeline` passes to `_assign_with_scoring`
(pipeline.py:413). -/
def themesFor (themeNames : List String) (target : String) : List String :=
  target :: themeNames.filter (fun t => t ≠ target)

/-- Which theme a candidate with scoring outcome `r` is routed to while
`target` is being filled (`none` = discarded below threshold). -/
def routesTo (enabled : Bool) (themeNames : List String) (minSim : Rat)
    (target : String) (r : ScoringRes) : Option String :=
  (assign_with_scoring enabled (themesFor themeNames target) minSim r).1

/-- `_move_to_theme` followed by `results[best_theme] += 1`
(pipeline.py:421,446): one more `.wav` file in `best`'s bank directory and
one more filled count for `best`. -/
def assignCandidate (σ : PState) (best : String) : PState :=
  { σ with banks := upd σ.banks best (σ.banks best + 1),
           results := upd σ.results best (σ.results best + 1) }

/-- `retries[target_theme] += 1` (pipeline.py:417,449). -/
def noteRetry (σ : PState) (target : String) : PState :=
  { σ with retries := upd σ.retries target (σ.retries target + 1) }

/-- `cand.unlink(missing_ok=True)` in the below-threshold branch
(pipeline.py:416). -/
def unlinkCandidate (σ : PState) : PState :=
  { σ with deletedFiles := σ.deletedFiles + 1 }

/-- The body of `for cand in candidates` (pipeline.py:409-452) acting on one
candidate: discard below threshold (delete file, bump target's retries), or
move into the winning theme's bank, bumping the target's retries as well when
the slice was cross-assigned. -/
def stepCandidate (enabled : Bool) (themeNames : List String) (minSim : Rat)
    (target : String) (σ : PState) (r : ScoringRes) : PState :=
  match routesTo enabled themeNames minSim target r with
  | none => noteRetry (unlinkCandidate σ) target
  | some best =>
      let σ1 := assignCandidate σ best
      if best ≠ target then noteRetry σ1 target else σ1

/-- The `for cand in candidates` loop (pipeline.py:409-452).  After a
successful assignment the loop breaks once `results[target_theme] >=
samples_per_bank`; the discard branch `continue`s without that check. -/
def processCandidates (enabled : Bool) (themeNames : List String) (minSim : Rat)
    (spb : Nat) (target : String) : PState → List ScoringRes → PState
  | σ, [] => σ
  | σ, r :: rest =>
    let σ2 := stepCandidate enabled themeNames minSim target σ r
    match routesTo enabled themeNames minSim target r with
    | none => processCandidates enabled themeNames minSim spb target σ2 rest
    | some _ =>
        if spb ≤ σ2.results target then σ2
        else processCandidates enabled themeNames minSim spb target σ2 rest

/-- The `while results[target_theme] < samples_per_bank` loop
(pipeline.py:357-452) for one theme, driven by the successive candidate
batches that `download_candidates_for_term` returns (downloads are external
I/O, so the batches are an input of the model; a search query that yields
nothing is the empty batch, and the search-rotation bookkeeping only decides
which batches occur).  A `max_retries` cap of `0` is unbounded. -/
def processTheme (enabled : Bool) (themeNames : List String) (minSim : Rat)
    (spb maxRetries : Nat) (target : String) :
    PState → List (List ScoringRes) → PState
  | σ, [] => σ
  | σ, b :: rest =>
    if spb ≤ σ.results target then σ
    else if maxRetries ≠ 0 ∧ maxRetries ≤ σ.retries target then σ
    else
      processTheme enabled themeNames minSim spb maxRetries target
        (processCandidates enabled themeNames minSim spb target σ b) rest

/-- The `for idx, theme_obj in enumerate(theme_objects)` loop
(pipeline.py:305-452): an already-complete theme is skipped
(`if results[theme_name] >= samples_per_bank: continue`), otherwise its
filling loop runs. -/
def runThemes (enabled : Bool) (themeNames : List String) (minSim : Rat)
    (spb maxRetries : Nat) :
    PState → List (String × List (List ScoringRes)) → PState
  | σ, [] => σ
  | σ, (t, bs) :: rest =>
    if spb ≤ σ.results t then
      runThemes enabled themeNames minSim spb maxRetries σ rest
    else
      runThemes enabled themeNames minSim spb maxRetries
        (processTheme enabled themeNames minSim spb maxRetries t σ bs) rest

/-- `Path.glob("*.wav")` membership: the filename ends in `.wav`. -/
def isWavName (name : List Char) : Bool :=
  ['.', 'w', 'a', 'v'].isSuffixOf name

/-- `_count_in_bank` (pipeline.py:30-34): the number of `.wav` files in the
theme's bank directory listing (a missing directory lists as `[]`, giving the
source's 0). -/
def count_in_bank (files : List (List Char)) : Nat :=
  (files.filter isWavName).length

/-- `results = {t: _count_in_bank(t, session_dir) for t in theme_names}` and
`retries = {t: 0 for t in theme_names}` (pipeline.py:189-190), run on every
start, fresh or resumed; `fs t` is the on-disk listing of theme `t`'s bank
directory.  `banks` is by definition the same on-disk `.wav` count. -/
def initState (fs : String → List (List Char)) : PState :=
  { results := fun t => count_in_bank (fs t),
    retries := fun _ => 0,
    banks := fun t => count_in_bank (fs t),
    deletedFiles := 0 }

/-! ### Basic lemmas about the assignment-loop state -/

theorem upd_self (f : String → Nat) (k : String) (v : Nat) : upd f k v k = v := by
  simp [upd]

theorem upd_ne (f : String → Nat) {t k : String} (v : Nat) (h : t ≠ k) :
    upd f k v t = f t := by
  simp [upd, h]

/-- One candidate step keeps the bank-directory file count of every theme
equal to its filled count (file moves and count increments happen together). -/
theorem stepCandidate_banks_eq (e : Bool) (names : List String) (m : Rat)
    (target t : String) (σ : PState) (r : ScoringRes)
    (h : σ.banks t = σ.results t) :
    (stepCandidate e names m target σ r).banks t
      = (stepCandidate e names m target σ r).results t := by
  cases hr : routesTo e names m target r with
  | none => simpa [stepCandidate, hr, noteRetry, unlinkCandidate] using h
  | some best =>
    simp only [stepCandidate, hr]
    split <;> simp [noteRetry, assignCandidate, upd] <;> split <;> simp_all

/-- One candidate step never touches the filled count or the bank of a theme
the candidate is not routed to (other than bookkeeping on the target's
retries). -/
theorem stepCandidate_other (e : Bool) (names : List String) (m : Rat)
    (target t : String) (σ : PState) (r : ScoringRes)
    (hr : routesTo e names m target r ≠ some t) :
    (stepCandidate e names m target σ r).results t = σ.results t ∧
    (stepCandidate e names m target σ r).banks t = σ.banks t := by
  cases hb : routesTo e names m target r with
  | none => simp [stepCandidate, hb, noteRetry, unlinkCandidate]
  | some best =>
    have hbt : t ≠ best := fun hh => hr (by simp [hb, hh])
    by_cases hc : best = target
    · subst hc
      simp [stepCandidate, hb, noteRetry, assignCandidate, upd, hbt]
    · simp [stepCandidate, hb, noteRetry, assignCandidate, upd, hbt, hc]

/-- One candidate step raises the target's own filled count by at most one,
and only when the candidate is routed to the target. -/
theorem stepCandidate_results_target_le (e : Bool) (names : List String) (m : Rat)
    (target : String) (σ : PState) (r : ScoringRes) :
    (stepCandidate e names m target σ r).results target ≤ σ.results target + 1 := by
  cases hb : routesTo e names m target r with
  | none => simp [stepCandidate, hb, noteRetry, unlinkCandidate]
  | some best =>
    by_cases hc : best = target
    · subst hc
      simp [stepCandidate, hb, assignCandidate, upd]
    · have hres : (stepCandidate e names m target σ r).results target
          = σ.results target := by
        simp [stepCandidate, hb, hc, noteRetry, assignCandidate, upd, Ne.symm hc]
      omega

/-- `processCandidates` keeps `banks = results` pointwise. -/
theorem processCandidates_banks_eq (e : Bool) (names : List String) (m : Rat)
    (spb : Nat) (target t : String) (rs : List ScoringRes) (σ : PState)
    (h : σ.banks t = σ.results t) :
    (processCandidates e names m spb target σ rs).banks t
      = (processCandidates e names m spb target σ rs).results t := by
  induction rs generalizing σ with
  | nil => simpa [processCandidates] using h
  | cons r rest ih =>
    have hstep := stepCandidate_banks_eq e names m target t σ r h
    cases hb : routesTo e names m target r with
    | none => simp only [processCandidates, hb]; exact ih _ hstep
    | some best =>
      simp only [processCandidates, hb]
      split
      · exact hstep
      · exact ih _ hstep

/-- While theme `t` itself is being filled, its filled count never passes the
target: every assignment to `t` is immediately followed by the
`results[target_theme] >= samples_per_bank` break. -/
theorem processCandidates_self_le (e : Bool) (names : List String) (m : Rat)
    (spb : Nat) (target : String) (rs : List ScoringRes) (σ : PState)
    (h : σ.results target < spb) :
    (processCandidates e names m spb target σ rs).results target ≤ spb := by
  induction rs generalizing σ with
  | nil => simpa [processCandidates] using Nat.le_of_lt h
  | cons r rest ih =>
    have hstep := stepCandidate_results_target_le e names m target σ r
    cases hb : routesTo e names m target r with
    | none =>
      simp only [processCandidates, hb]
      exact ih _ (by simpa [stepCandidate, hb, noteRetry, unlinkCandidate] using h)
    | some best =>
      simp only [processCandidates, hb]
      split
      · omega
      · next hlt => exact ih _ (by omega)

/-- Candidates none of which route to theme `t` leave `t`'s filled count and
bank untouched while some other theme is the target. -/
theorem processCandidates_other (e : Bool) (names : List String) (m : Rat)
    (spb : Nat) (target t : String) (rs : List ScoringRes) (σ : PState)
    (hr : ∀ r ∈ rs, routesTo e names m target r ≠ some t) :
    (processCandidates e names m spb target σ rs).results t = σ.results t ∧
    (processCandidates e names m spb target σ rs).banks t = σ.banks t := by
  induction rs generalizing σ with
  | nil => simp [processCandidates]
  | cons r rest ih =>
    have hstep := stepCandidate_other e names m target t σ r
      (hr r (List.mem_cons_self r rest))
    have hrest : ∀ r' ∈ rest, routesTo e names m target r' ≠ some t :=
      fun r' hm => hr r' (List.mem_cons_of_mem r hm)
    cases hb : routesTo e names m target r with
    | none =>
      simp only [processCandidates, hb]
      obtain ⟨h1, h2⟩ := ih (stepCandidate e names m target σ r) hrest
      exact ⟨h1.trans hstep.1, h2.trans hstep.2⟩
    | some best =>
      simp only [processCandidates, hb]
      split
      · exact hstep
      · obtain ⟨h1, h2⟩ := ih (stepCandidate e names m target σ r) hrest
        exact ⟨h1.trans hstep.1, h2.trans hstep.2⟩

/-- `processTheme` keeps `banks = results` pointwise. -/
theorem processTheme_banks_eq (e : Bool) (names : List String) (m : Rat)
    (spb mr : Nat) (target t : String) (bs : List (List ScoringRes)) (σ : PState)
    (h : σ.banks t = σ.results t) :
    (processTheme e names m spb mr target σ bs).banks t
      = (processTheme e names m spb mr target σ bs).results t := by
  induction bs generalizing σ with
  | nil => simpa [processTheme] using h
  | cons b rest ih =>
    simp only [processTheme]
    split
    · exact h
    · split
      · exact h
      · exact ih _ (processCandidates_banks_eq e names m spb target t b σ h)

/-- The per-theme filling loop never pushes its own theme past the target. -/
theorem processTheme_self_le (e : Bool) (names : List String) (m : Rat)
    (spb mr : Nat) (t : String) (bs : List (List ScoringRes)) (σ : PState)
    (h : σ.results t ≤ spb) :
    (processTheme e names m spb mr t σ bs).results t ≤ spb := by
  induction bs generalizing σ with
  | nil => simpa [processTheme] using h
  | cons b rest ih =>
    simp only [processTheme]
    split
    · exact h
    · next hlt =>
      split
      · exact h
      · exact ih _ (processCandidates_self_le e names m spb t b σ (by omega))

/-- Filling some other theme whose batches never route to `t` leaves `t`'s
filled count and bank untouched. -/
theorem processTheme_other (e : Bool) (names : List String) (m : Rat)
    (spb mr : Nat) (target t : String) (bs : List (List ScoringRes)) (σ : PState)
    (hr : ∀ b ∈ bs, ∀ r ∈ b, routesTo e names m target r ≠ some t) :
    (processTheme e names m spb mr target σ bs).results t = σ.results t ∧
    (processTheme e names m spb mr target σ bs).banks t = σ.banks t := by
  induction bs generalizing σ with
  | nil => simp [processTheme]
  | cons b rest ih =>
    have hb : ∀ r ∈ b, routesTo e names m target r ≠ some t :=
      hr b (List.mem_cons_self b rest)
    have hrest : ∀ b' ∈ rest, ∀ r ∈ b', routesTo e names m target r ≠ some t :=
      fun b' hm => hr b' (List.mem_cons_of_mem b hm)
    simp only [processTheme]
    split
    · exact ⟨rfl, rfl⟩
    · split
      · exact ⟨rfl, rfl⟩
      · obtain ⟨h1, h2⟩ := ih (processCandidates e names m spb target σ b) hrest
        obtain ⟨h3, h4⟩ := processCandidates_other e names m spb target t b σ hb
        exact ⟨h1.trans h3, h2.trans h4⟩

/-- `runThemes` keeps `banks = results` pointwise. -/
theorem runThemes_banks_eq (e : Bool) (names : List String) (m : Rat)
    (spb mr : Nat) (t : String) (input : List (String × List (List ScoringRes)))
    (σ : PState) (h : σ.banks t = σ.results t) :
    (runThemes e names m spb mr σ input).banks t
      = (runThemes e names m spb mr σ input).results t := by
  induction input generalizing σ with
  | nil => simpa [runThemes] using h
  | cons p rest ih =>
    obtain ⟨tgt, bs⟩ := p
    simp only [runThemes]
    split
    · exact ih _ h
    · exact ih _ (processTheme_banks_eq e names m spb mr tgt t bs σ h)

/-- Hypothesis of the amended bank-capacity claim: no scoring outcome in a
batch fetched for a different target theme routes a slice to theme `t`. -/
def noCrossTo (e : Bool) (names : List String) (m : Rat) (t : String)
    (input : List (String × List (List ScoringRes))) : Prop :=
  ∀ p ∈ input, p.1 ≠ t → ∀ b ∈ p.2, ∀ r ∈ b, routesTo e names m p.1 r ≠ some t

instance (e : Bool) (names : List String) (m : Rat) (t : String)
    (input : List (String × List (List ScoringRes))) :
    Decidable (noCrossTo e names m t input) := by
  unfold noCrossTo; infer_instance

theorem runThemes_self_le (e : Bool) (names : List String) (m : Rat)
    (spb mr : Nat) (t : String) (input : List (String × List (List ScoringRes)))
    (σ : PState) (h : σ.results t ≤ spb)
    (hcross : noCrossTo e names m t input) :
    (runThemes e names m spb mr σ input).results t ≤ spb := by
  induction input generalizing σ with
  | nil => simpa [runThemes] using h
  | cons p rest ih =>
    obtain ⟨tgt, bs⟩ := p
    have hrest : noCrossTo e names m t rest :=
      fun p' hm => hcross p' (List.mem_cons_of_mem _ hm)
    simp only [runThemes]
    split
    · exact ih _ h hrest
    · by_cases htgt : tgt = t
      · subst htgt
        exact ih _ (processTheme_self_le e names m spb mr tgt bs σ h) hrest
      · have hno := hcross (tgt, bs) (List.mem_cons_self _ rest) htgt
        have := (processTheme_other e names m spb mr tgt t bs σ hno).1
        exact ih _ (by omega) hrest

/-! ### Claim C5: threshold discard -/

/-- C5: when scoring is enabled and returns a score for a candidate slice, a
best similarity strictly below the configured minimum means the slice is
placed in no theme's bank directory, its file is deleted, only the target
theme's retry counter is incremented by one, and no theme's filled count
changes; a score at or above the threshold is not discarded by this rule
(the file is not deleted and it lands in the winning theme's bank). -/
theorem claim_C5_threshold_discard (names : List String) (minSim : Rat)
    (target name : String) (σ : PState) (s : Rat) (hlt : s < minSim) :
    (stepCandidate true names minSim target σ (ScoringRes.scored name s)).banks
      = σ.banks
    ∧ (stepCandidate true names minSim target σ (ScoringRes.scored name s)).deletedFiles
      = σ.deletedFiles + 1
    ∧ (stepCandidate true names minSim target σ (ScoringRes.scored name s)).retries target
      = σ.retries target + 1
    ∧ (∀ t, t ≠ target →
        (stepCandidate true names minSim target σ (ScoringRes.scored name s)).retries t
          = σ.retries t)
    ∧ (stepCandidate true names minSim target σ (ScoringRes.scored name s)).results
      = σ.results
    ∧ (∀ s' : Rat, minSim ≤ s' →
        (stepCandidate true names minSim target σ (ScoringRes.scored name s')).deletedFiles
          = σ.deletedFiles
        ∧ (stepCandidate true names minSim target σ (ScoringRes.scored name s')).banks name
          = σ.banks name + 1) := by
  have hroute : routesTo true names minSim target (ScoringRes.scored name s) = none := by
    simp [routesTo, assign_with_scoring, hlt]
  refine ⟨?_, ?_, ?_, ?_, ?_, ?_⟩
  · simp [stepCandidate, hroute, noteRetry, unlinkCandidate]
  · simp [stepCandidate, hroute, noteRetry, unlinkCandidate]
  · simp [stepCandidate, hroute, noteRetry, unlinkCandidate, upd]
  · intro t ht
    simp [stepCandidate, hroute, noteRetry, unlinkCandidate, upd, ht]
  · simp [stepCandidate, hroute, noteRetry, unlinkCandidate]
  · intro s' hs'
    have hroute' : routesTo true names minSim target (ScoringRes.scored name s')
        = some name := by
      simp [routesTo, assign_with_scoring, not_lt.mpr hs']
    constructor
    · simp only [stepCandidate, hroute']
      split <;> simp [noteRetry, assignCandidate]
    · simp only [stepCandidate, hroute']
      split <;> simp [noteRetry, assignCandidate, upd]

/-- Witness for C5 at a concrete state, score `0` against threshold `1/2`. -/
theorem claim_C5_witness :
    (stepCandidate true ["A", "B"] (1/2) "A" (initState fun _ => [])
        (ScoringRes.scored "B" 0)).retries "A"
      = (initState fun _ => []).retries "A" + 1 :=
  (claim_C5_threshold_discard ["A", "B"] (1/2) "A" "B" (initState fun _ => []) 0
    (by norm_num)).2.2.1

/-! ### Claim C6: cross-theme reassignment accounting -/

/-- C6: when a candidate fetched while filling theme `A` is routed to a
different theme `B`, `B`'s filled count and bank grow by exactly one, `A`'s
retry counter grows by exactly one, `A`'s filled count is unchanged, and no
other theme's filled count or retry counter changes (nor `B`'s retries). -/
theorem claim_C6_cross_assignment (names : List String) (minSim : Rat)
    (A B : String) (σ : PState) (r : ScoringRes)
    (hroute : routesTo true names minSim A r = some B) (hne : B ≠ A) :
    (stepCandidate true names minSim A σ r).results B = σ.results B + 1
    ∧ (stepCandidate true names minSim A σ r).banks B = σ.banks B + 1
    ∧ (stepCandidate true names minSim A σ r).retries A = σ.retries A + 1
    ∧ (stepCandidate true names minSim A σ r).results A = σ.results A
    ∧ (stepCandidate true names minSim A σ r).banks A = σ.banks A
    ∧ (stepCandidate true names minSim A σ r).retries B = σ.retries B
    ∧ (∀ t, t ≠ A → t ≠ B →
        (stepCandidate true names minSim A σ r).results t = σ.results t
        ∧ (stepCandidate true names minSim A σ r).retries t = σ.retries t
        ∧ (stepCandidate true names minSim A σ r).banks t = σ.banks t) := by
  have hAB : A ≠ B := Ne.symm hne
  refine ⟨?_, ?_, ?_, ?_, ?_, ?_, ?_⟩
  · simp [stepCandidate, hroute, hne, noteRetry, assignCandidate, upd]
  · simp [stepCandidate, hroute, hne, noteRetry, assignCandidate, upd]
  · simp [stepCandidate, hroute, hne, noteRetry, assignCandidate, upd]
  · simp [stepCandidate, hroute, hne, noteRetry, assignCandidate, upd, hAB]
  · simp [stepCandidate, hroute, hne, noteRetry, assignCandidate, upd, hAB]
  · simp [stepCandidate, hroute, hne, noteRetry, assignCandidate, upd, hne]
  · intro t ht1 ht2
    simp [stepCandidate, hroute, hne, noteRetry, assignCandidate, upd, ht1, ht2]

/-- Witness for C6: a slice fetched for theme `A` scoring best for `B`. -/
theorem claim_C6_witness :
    (stepCandidate true ["A", "B"] 0 "A" (initState fun _ => [])
        (ScoringRes.scored "B" 1)).results "B"
      = (initState fun _ => []).results "B" + 1 :=
  (claim_C6_cross_assignment ["A", "B"] 0 "A" "B" (initState fun _ => [])
    (ScoringRes.scored "B" 1) (by norm_num [routesTo, assign_with_scoring])
    (by decide)).1

/-! ### Claim C2: bank capacity -/

/-- C2 counterexample: with two themes `A`, `B` and `target_per_bank = 1`,
after `A` is complete a slice fetched while filling `B` but scored best for
`A` is still written to `A`'s bank (pipeline.py:446 has no capacity check on
`best_theme`), so `A`'s filled count and bank reach 2 > 1. -/
theorem claim_C2_counterexample :
    1 < (runThemes true ["A", "B"] 0 1 0 (initState fun _ => [])
          [("A", [[ScoringRes.scored "A" 1]]),
           ("B", [[ScoringRes.scored "A" 1]])]).results "A"
    ∧ 1 < (runThemes true ["A", "B"] 0 1 0 (initState fun _ => [])
          [("A", [[ScoringRes.scored "A" 1]]),
           ("B", [[ScoringRes.scored "A" 1]])]).banks "A" := by
  constructor <;> decide

/-- C2 (amended): starting from a state whose filled count for theme `t` is
within the target and matches `t`'s bank directory, `t`'s filled count and
bank file count never exceed `target_per_bank` provided no slice fetched for
a *different* target theme is cross-routed to `t`; a cross-assigned slice can
push an already-complete theme past the target (see the counterexample). -/
theorem claim_C2_amended_capacity (e : Bool) (names : List String) (m : Rat)
    (spb mr : Nat) (t : String) (input : List (String × List (List ScoringRes)))
    (σ0 : PState) (h1 : σ0.results t ≤ spb) (h2 : σ0.banks t = σ0.results t)
    (hcross : noCrossTo e names m t input) :
    (runThemes e names m spb mr σ0 input).results t ≤ spb
    ∧ (runThemes e names m spb mr σ0 input).banks t ≤ spb := by
  have hr := runThemes_self_le e names m spb mr t input σ0 h1 hcross
  have hb := runThemes_banks_eq e names m spb mr t input σ0 h2
  omega

/-- Witness for the amended C2 on a concrete cross-assignment-free run. -/
theorem claim_C2_amended_witness :
    (runThemes true ["A", "B"] 0 1 0 (initState fun _ => [])
        [("A", [[ScoringRes.scored "A" 1]]),
         ("B", [[ScoringRes.scored "B" 1]])]).results "A" ≤ 1
    ∧ (runThemes true ["A", "B"] 0 1 0 (initState fun _ => [])
        [("A", [[ScoringRes.scored "A" 1]]),
         ("B", [[ScoringRes.scored "B" 1]])]).banks "A" ≤ 1 :=
  claim_C2_amended_capacity true ["A", "B"] 0 1 0 "A"
    [("A", [[ScoringRes.scored "A" 1]]), ("B", [[ScoringRes.scored "B" 1]])]
    (initState fun _ => []) (by decide) (by decide) (by decide)

/-! ### Claim C7: resume derives progress from disk -/

/-- C7: at the start of every run, fresh or resumed, each theme's filled
count is exactly the `.wav` count of its bank directory (and retries start
at 0); throughout a run the filled count stays equal to the on-disk bank
count, so a resume re-derives exactly the stop-time counts; and a theme
whose on-disk count already meets the target is skipped without any new
assignment (its batches are never consumed). -/
theorem claim_C7_resume_from_disk (e : Bool) (names : List String) (m : Rat)
    (spb mr : Nat) (fs : String → List (List Char)) (t : String)
    (input : List (String × List (List ScoringRes)))
    (bs : List (List ScoringRes))
    (rest : List (String × List (List ScoringRes))) :
    (initState fs).results t = count_in_bank (fs t)
    ∧ (initState fs).retries t = 0
    ∧ (runThemes e names m spb mr (initState fs) input).results t
        = (runThemes e names m spb mr (initState fs) input).banks t
    ∧ (spb ≤ count_in_bank (fs t) →
        runThemes e names m spb mr (initState fs) ((t, bs) :: rest)
          = runThemes e names m spb mr (initState fs) rest) := by
  refine ⟨rfl, rfl,
    (runThemes_banks_eq e names m spb mr t input (initState fs) rfl).symm, ?_⟩
  intro h
  have hcond : spb ≤ (initState fs).results t := h
  simp [runThemes, hcond]

/-- Witness for C7 on a bank listing holding one `.wav` and one `.json`. -/
theorem claim_C7_witness :
    runThemes true ["A", "B"] 0 1 0
        (initState fun t => if t = "A"
          then [['a', '.', 'w', 'a', 'v'], ['a', '.', 'j', 's', 'o', 'n']] else [])
        [("A", [[ScoringRes.scored "A" 1]])]
      = runThemes true ["A", "B"] 0 1 0
        (initState fun t => if t = "A"
          then [['a', '.', 'w', 'a', 'v'], ['a', '.', 'j', 's', 'o', 'n']] else [])
        [] :=
  (claim_C7_resume_from_disk true ["A", "B"] 0 1 0
    (fun t => if t = "A"
      then [['a', '.', 'w', 'a', 'v'], ['a', '.', 'j', 's', 'o', 'n']] else [])
    "A" [] [[ScoringRes.scored "A" 1]] []).2.2.2 (by decide)

/-! ## Sequential slicing (`_process_to_candidate_slices`, downloader.py:262-354)

The pydub export itself is external; what the model keeps is the loop
structure over stride positions, the `add_hash` check against the hash
ledger, and the control flow of the duplicate branch.  `hashOf start` is the
content hash of the slice exported at offset `start` (ms); `ledger` is the
`audio_hashes` table. -/

/-- The slice-export loop as written (downloader.py:286-352).  The duplicate
branch mirrors the source faithfully: `out_path.unlink()` succeeds, then
`start += stride_ms` raises `NameError` — the parameter is named
`slice_stride_ms` and no `stride_ms` is in scope — which the enclosing
`except Exception` catches, and the handler `break`s out of the loop.  So a
hash collision always terminates slicing.  `n` is the remaining slice budget
(`slices_per_video - taken`); returns the exported slice offsets and the
final ledger. -/
def sliceLoop (soundLen clipMs strideMs : Nat) (hashOf : Nat → Nat) :
    Nat → Nat → List Nat → List Nat × List Nat
  | 0, _, ledger => ([], ledger)
  | n + 1, start, ledger =>
    if start + clipMs ≤ soundLen then
      if hashOf start ∈ ledger then
        ([], ledger)
      else
        let res := sliceLoop soundLen clipMs strideMs hashOf n
          (start + max strideMs 1) (hashOf start :: ledger)
        (start :: res.1, res.2)
    else ([], ledger)

/-- `_process_to_candidate_slices`: the too-short guard (delete source,
return no slices) followed by the export loop from offset 0. -/
def process_to_candidate_slices (soundLen clipMs slicesPerVideo strideMs : Nat)
    (hashOf : Nat → Nat) (ledger : List Nat) : List Nat × List Nat :=
  if soundLen < clipMs then ([], ledger)
  else sliceLoop soundLen clipMs strideMs hashOf slicesPerVideo 0 ledger

/-- Modelled from the spec: the duplicate handling `sliceSequential` is
specified (and the source's own comment and log line describe) — "on
collision, delete the slice and advance to the next stride position (do not
retry the same position)" — i.e. the intended effect of the unreachable
`start += stride_ms; continue`.  The advance uses the same
`max(slice_stride_ms, 1)` step as the export path so the loop always
progresses. -/
def sliceLoopSpec (soundLen clipMs strideMs : Nat) (hashOf : Nat → Nat) :
    Nat → Nat → List Nat → List Nat × List Nat
  | 0, _, ledger => ([], ledger)
  | n + 1, start, ledger =>
    if h : start + clipMs ≤ soundLen then
      if hashOf start ∈ ledger then
        sliceLoopSpec soundLen clipMs strideMs hashOf (n + 1)
          (start + max strideMs 1) ledger
      else
        let res := sliceLoopSpec soundLen clipMs strideMs hashOf n
          (start + max strideMs 1) (hashOf start :: ledger)
        (start :: res.1, res.2)
    else ([], ledger)
  termination_by n start _ => soundLen + 1 - start
  decreasing_by
    all_goals
      have h1 : 1 ≤ max strideMs 1 := Nat.le_max_right strideMs 1
      omega

/-! ## Download strategy (`_download_one`, downloader.py:624-724) -/

/-- `DOWNLOAD_METHOD`: `smart` (default), `segment` (forced ranged), or
`aria2c` (forced full download). -/
inductive DlMethod where
  | smart
  | segment
  | aria2c

/-- What `_download_one` asks the fetch layer to do: a time range in whole
seconds, whether the accelerated multi-connection downloader (aria2c) is in
play, and whether the precise ffmpeg `-ss`/`-to` ranged path is used. -/
structure FetchPlan where
  ranged : Bool
  rangeStart : Nat
  rangeStop : Nat
  usesAria : Bool
  usesFfmpegRange : Bool

/-- The strategy choice of `_download_one` (downloader.py:624-724).
`clipSeconds` is `clip_ms / 1000` (exact: `CLIP_SECONDS` is an integer and
`clip_ms = CLIP_SECONDS * 1000`, pipeline.py:111); `chunkSeconds` is
`DOWNLOAD_CHUNK_SECONDS`.  `effective = max(chunk, clip)`; in smart mode
segments are used iff the (truthy) duration strictly exceeds `effective`.
The ranged branch takes `start = max(0, center - effective // 2)` (natural
subtraction) and `end = min(duration, start + effective + 2)`, deletes the
aria2c external downloader and installs ffmpeg with `-ss start -to end`.
The short branch downloads `*0-sec` from the beginning with
`sec = max(1, round(clip_ms / 1000))`, keeping aria2c if available and
enabled (`_ydl_opts`, downloader.py:151-244). -/
def download_plan (method : DlMethod) (ariaAvailable ariaEnabled : Bool)
    (videoDuration chunkSeconds clipSeconds : Nat) : FetchPlan :=
  let eff := max chunkSeconds clipSeconds
  let useSegments : Bool :=
    match method with
    | .segment => true
    | .aria2c => false
    | .smart => decide (eff < videoDuration)
  if useSegments then
    let center := videoDuration / 2
    let start := center - eff / 2
    { ranged := true, rangeStart := start,
      rangeStop := min videoDuration (start + eff + 2),
      usesAria := false, usesFfmpegRange := true }
  else
    { ranged := false, rangeStart := 0, rangeStop := max 1 clipSeconds,
      usesAria :=
        (match method with
         | .aria2c => ariaAvailable
         | _ => ariaAvailable && ariaEnabled),
      usesFfmpegRange := false }

/-! ## File hashing (hash_manager.py:441-450, downloader.py:142-148) -/

/-- `calculate_file_hash`: the whole chunked read runs inside `try`, and any
failure (missing file, unreadable file) returns the empty string.  The read
is external I/O, so the model takes it as an oracle: `none` is a read that
raises, `some bs` the bytes read; `md5hex` is the MD5 hex digest. -/
def calculate_file_hash (readBytes : Option (List Nat))
    (md5hex : List Nat → List Char) : List Char :=
  match readBytes with
  | some bs => md5hex bs
  | none => []

/-- `_is_duplicate` (downloader.py:142-148): a file is a duplicate iff its
hash is truthy (non-empty) and already present in the hash table. -/
def is_duplicate (readBytes : Option (List Nat)) (md5hex : List Nat → List Char)
    (hashes : List (List Char)) : Bool :=
  let h := calculate_file_hash readBytes md5hex
  if h ≠ [] then hashes.contains h else false

/-! ### Claim C3: duplicate slice handling (code bug) -/

/-- C3 (code bug): at the failing input — a 4000 ms source, 1000 ms clips,
1000 ms stride, budget 3, with the slice at offset 0 already hashed in the
ledger — the code as written produces no slices at all (the duplicate branch
raises `NameError` on the unbound `stride_ms` and the handler breaks),
whereas the specified behaviour — advance one stride and continue — produces
the three fresh slices at 1000, 2000 and 3000 ms. -/
theorem claim_C3_duplicate_stops_slicing :
    process_to_candidate_slices 4000 1000 3 1000 (fun s => s) [0] = ([], [0])
    ∧ sliceLoopSpec 4000 1000 1000 (fun s => s) 3 0 [0]
        = ([1000, 2000, 3000], [3000, 2000, 1000, 0]) := by
  constructor
  · decide
  · simp [sliceLoopSpec]

/-! ### Claim C8: centered sub-range fetch -/

/-- C8 counterexample: with duration 100 s, chunk 10 s, clips 2 s, the
requested range ends at 57 s, not at the claimed
`min(duration, center + chunk/2) = 55` (the code adds a 2-second buffer to
`start + effective`); and with clips of 15 s over a 10 s chunk, a 12 s video
exceeds the configured chunk size yet is fetched from the beginning, because
the threshold is `max(chunk, clip)`, not the chunk size. -/
theorem claim_C8_counterexample :
    (download_plan DlMethod.smart true true 100 10 2).rangeStop = 57
    ∧ min 100 (100 / 2 + max 10 2 / 2) = 55
    ∧ (download_plan DlMethod.smart true true 12 10 15).ranged = false
    ∧ 10 < 12 := by
  refine ⟨?_, ?_, ?_, ?_⟩ <;> decide

/-- C8 (amended): in the default smart mode, when the duration exceeds the
*effective* chunk `max(chunk, clip)` the fetch is a centered sub-range from
`max(0, center - effective/2)` to `min(duration, start + effective + 2)` —
center minus half the effective chunk up to center plus half plus a
two-second buffer, clamped to the video bounds — via the precise ffmpeg
ranged path with aria2c disabled; otherwise the fetch starts from the
beginning of the source with no ranged downloader. -/
theorem claim_C8_amended_centered_fetch (aAvail aEnab : Bool)
    (dur chunk clip : Nat) :
    (max chunk clip < dur →
      download_plan DlMethod.smart aAvail aEnab dur chunk clip =
        { ranged := true,
          rangeStart := dur / 2 - max chunk clip / 2,
          rangeStop := min dur (dur / 2 - max chunk clip / 2 + max chunk clip + 2),
          usesAria := false,
          usesFfmpegRange := true })
    ∧ (¬ max chunk clip < dur →
      download_plan DlMethod.smart aAvail aEnab dur chunk clip =
        { ranged := false, rangeStart := 0, rangeStop := max 1 clip,
          usesAria := aAvail && aEnab, usesFfmpegRange := false })
    ∧ ((download_plan DlMethod.smart aAvail aEnab dur chunk clip).rangeStart
        ≤ dur / 2) := by
  refine ⟨fun h => ?_, fun h => ?_, ?_⟩
  · simp [download_plan, h]
  · simp [download_plan, h]
  · by_cases h : max chunk clip < dur <;> simp [download_plan, h]

/-- Witness for the amended C8: a 100 s video, 10 s chunks, 2 s clips. -/
theorem claim_C8_witness :
    download_plan DlMethod.smart true true 100 10 2 =
      { ranged := true,
        rangeStart := 100 / 2 - max 10 2 / 2,
        rangeStop := min 100 (100 / 2 - max 10 2 / 2 + max 10 2 + 2),
        usesAria := false,
        usesFfmpegRange := true } :=
  (claim_C8_amended_centered_fetch true true 100 10 2).1 (by decide)

/-! ### Claim C10: hashing failures are fail-open -/

/-- C10: `calculate_file_hash` returns the empty string whenever the read
fails (it is total: the entire read is wrapped in `try`/`except`), and
`_is_duplicate` consequently reports *not a duplicate* for any file whose
content cannot be hashed, whatever the hash table holds; on a successful
read it returns the digest. -/
theorem claim_C10_hash_fail_open (md5hex : List Nat → List Char)
    (hashes : List (List Char)) (readBytes : Option (List Nat))
    (hfail : readBytes = none) :
    calculate_file_hash readBytes md5hex = []
    ∧ is_duplicate readBytes md5hex hashes = false
    ∧ (∀ bs, calculate_file_hash (some bs) md5hex = md5hex bs) := by
  subst hfail
  refine ⟨rfl, ?_, fun bs => rfl⟩
  simp [is_duplicate, calculate_file_hash]

/-- Witness for C10: a failed read against a non-empty hash table. -/
theorem claim_C10_witness :
    calculate_file_hash none (fun _ => ['x']) = []
    ∧ is_duplicate none (fun _ => ['x']) [['x']] = false
    ∧ (∀ bs, calculate_file_hash (some bs) (fun _ => ['x']) = ['x']) :=
  claim_C10_hash_fail_open (fun _ => ['x']) [['x']] none rfl

/-! ## URL normalization (hash_manager.py:22-26, 253-277)

`normalize_url` searches the URL with the three compiled patterns of
`YOUTUBE_URL_PATTERNS` in order; each is an alternation of literal fragments
followed by a captured non-empty run of `[a-zA-Z0-9_-]`.  `re.search` finds
the leftmost matching position, trying alternatives left to right at each
position.  URLs are `List Char`. -/

/-- The regex character class `[a-zA-Z0-9_-]` (`Char.isAlpha`/`isDigit` are
the ASCII ranges, as in the pattern). -/
def isIdChar (c : Char) : Bool :=
  c.isAlpha || c.isDigit || c == '_' || c == '-'

/-- Literal match at the current position: `some rest` iff `pat` is a prefix
of `s`, with `rest` what follows it. -/
def matchLit : List Char → List Char → Option (List Char)
  | [], s => some s
  | _ :: _, [] => none
  | p :: ps, c :: cs => if p == c then matchLit ps cs else none

/-- One alternation `(?:a₁|a₂|…)([a-zA-Z0-9_-]+)` tried at the current
position: alternatives in order, each needing a non-empty id-character run
after its literal (otherwise the regex engine backtracks to the next
alternative); the `+` is greedy, so the capture is the maximal run. -/
def tryAlts (alts : List (List Char)) (s : List Char) : Option (List Char) :=
  match alts with
  | [] => none
  | a :: rest =>
    match matchLit a s with
    | some r =>
      let cap := r.takeWhile isIdChar
      if cap = [] then tryAlts rest s else some cap
    | none => tryAlts rest s

/-- `pattern.search(url)`: scan left to right for the first position where
the alternation matches, returning the captured group. -/
def scanFor (alts : List (List Char)) : List Char → Option (List Char)
  | [] => none
  | c :: cs =>
    match tryAlts alts (c :: cs) with
    | some cap => some cap
    | none => scanFor alts cs

/-- `YOUTUBE_URL_PATTERNS[0]`:
`(?:youtube\.com/watch\?v=|youtu\.be/|youtube\.com/embed/)([a-zA-Z0-9_-]+)`. -/
def pat1 : List (List Char) :=
  ["youtube.com/watch?v=".toList, "youtu.be/".toList, "youtube.com/embed/".toList]

/-- `YOUTUBE_URL_PATTERNS[1]`: `youtube\.com/v/([a-zA-Z0-9_-]+)`. -/
def pat2 : List (List Char) := ["youtube.com/v/".toList]

/-- `YOUTUBE_URL_PATTERNS[2]`: `youtube\.com/shorts/([a-zA-Z0-9_-]+)`. -/
def pat3 : List (List Char) := ["youtube.com/shorts/".toList]

/-- The `for pattern in YOUTUBE_URL_PATTERNS` loop of `normalize_url`
(hash_manager.py:260-265): first pattern with a match anywhere in the URL
wins. -/
def extractVideoId (url : List Char) : Option (List Char) :=
  match scanFor pat1 url with
  | some v => some v
  | none =>
    match scanFor pat2 url with
    | some v => some v
    | none => scanFor pat3 url

/-- `f"https://www.youtube.com/watch?v="` — the canonical watch-URL stem. -/
def watchStem : List Char := "https://www.youtube.com/watch?v=".toList

/-- `isSchemeChar`: the characters `urllib` accepts inside a URL scheme
(ASCII letters, digits, `+`, `-`, `.`). -/
def isSchemeChar (c : Char) : Bool :=
  c.isAlpha || c.isDigit || c == '+' || c == '-' || c == '.'

/-- The components of `urllib.parse.urlparse` that `normalize_url` reads. -/
structure UrlParts where
  scheme : List Char
  netloc : List Char
  path : List Char

/-- Scheme splitting as in `urlsplit`: a scheme is recognised when a `:`
occurs after a non-empty run of scheme characters starting with a letter,
and is lowercased; returns `(scheme, rest)`. -/
def parseScheme (url : List Char) : List Char × List Char :=
  let pre := url.takeWhile (fun c => c != ':')
  if decide (pre.length < url.length) && !(pre.isEmpty)
      && (pre.headD ' ').isAlpha && pre.all isSchemeChar then
    (pre.map Char.toLower, url.drop (pre.length + 1))
  else ([], url)

/-- Netloc splitting as in `urlsplit`: after a leading `//`, the netloc runs
to the first `/`, `?` or `#`; returns `(netloc, rest)`. -/
def netlocSplit (rest : List Char) : List Char × List Char :=
  match rest with
  | '/' :: '/' :: r =>
    (r.takeWhile (fun c => c != '/' && c != '?' && c != '#'),
     r.dropWhile (fun c => c != '/' && c != '?' && c != '#'))
  | _ => ([], rest)

/-- The fragment of `urllib.parse.urlparse` that `normalize_url` relies on:
scheme, netloc, and the path (what remains before the fragment and the
query). -/
def parseUrl (url : List Char) : UrlParts :=
  let sr := parseScheme url
  let nr := netlocSplit sr.2
  ⟨sr.1, nr.1, (nr.2.takeWhile (fun c => c != '#')).takeWhile (fun c => c != '?')⟩

/-- `HashManager.normalize_url` (hash_manager.py:253-277): extract a video
id via the patterns and normalize to the standard watch URL; otherwise
rebuild `f"{scheme}://{netloc.lower()}{path}"` when both netloc and path are
truthy, else return the URL unchanged. -/
def normalize_url (url : List Char) : List Char × Option (List Char) :=
  match extractVideoId url with
  | some vid => (watchStem ++ vid, some vid)
  | none =>
    let p := parseUrl url
    if p.netloc ≠ [] ∧ p.path ≠ [] then
      (p.scheme ++ [':', '/', '/'] ++ p.netloc.map Char.toLower ++ p.path, none)
    else (url, none)

/-! ## The used_urls ledger (hash_manager.py:279-352) -/

/-- One row of the `used_urls` table (the columns the dedup logic reads). -/
structure UrlRow where
  url : List Char
  normalized : List Char
  videoId : Option (List Char)

/-- The row `add_url` inserts for `u` (hash_manager.py:341-344). -/
def rowFor (u : List Char) : UrlRow :=
  ⟨u, (normalize_url u).1, (normalize_url u).2⟩

/-- The existence check inside `add_url`'s transaction (hash_manager.py:
324-334): by `video_id` when one was extracted, else by `normalized_url`. -/
def urlBlocked (db : List UrlRow) (u : List Char) : Bool :=
  match (normalize_url u).2 with
  | some v => db.any fun r => r.videoId == some v
  | none => db.any fun r => r.normalized == (normalize_url u).1

/-- `HashManager.add_url` (hash_manager.py:309-352), error-free path: the
atomic check-and-insert under the exclusive transaction, returning whether
the insert happened. -/
def add_url (db : List UrlRow) (u : List Char) : Bool × List UrlRow :=
  if urlBlocked db u then (false, db) else (true, db ++ [rowFor u])

/-- `HashManager.has_url` (hash_manager.py:279-298): check by video id
first when extractable, then by normalized or raw URL. -/
def has_url (db : List UrlRow) (u : List Char) : Bool :=
  (match (normalize_url u).2 with
   | some v => db.any fun r => r.videoId == some v
   | none => false)
  || db.any fun r => r.normalized == (normalize_url u).1 || r.url == u

/-- A sequence of `add_url` calls from a given table state. -/
def runAdds : List UrlRow → List (List Char) → List UrlRow
  | db, [] => db
  | db, u :: us => runAdds (add_url db u).2 us

/-- Two URLs are equivalent when they normalize to the same video id, or —
when neither has an extractable id — to the same normalized URL. -/
def equivUrl (u1 u2 : List Char) : Bool :=
  match (normalize_url u1).2, (normalize_url u2).2 with
  | some a, some b => a == b
  | none, none => (normalize_url u1).1 == (normalize_url u2).1
  | _, _ => false

/-! ### Scanning lemmas -/

theorem watchStem_eq :
    watchStem = ['h', 't', 't', 'p', 's', ':', '/', '/', 'w', 'w', 'w', '.',
      'y', 'o', 'u', 't', 'u', 'b', 'e', '.', 'c', 'o', 'm', '/',
      'w', 'a', 't', 'c', 'h', '?', 'v', '='] := rfl

theorem matchLit_self (p s : List Char) : matchLit p (p ++ s) = some s := by
  induction p with
  | nil => rfl
  | cons c cs ih => simp [matchLit, ih]

/-- A successful literal match transfers any pointwise property of the
subject string onto the pattern. -/
theorem matchLit_mem (P : Char → Bool) (p s r : List Char)
    (h : matchLit p s = some r) (hs : ∀ c ∈ s, P c = true) :
    ∀ c ∈ p, P c = true := by
  induction p generalizing s with
  | nil => simp
  | cons a as ih =>
    cases s with
    | nil => simp [matchLit] at h
    | cons b bs =>
      simp only [matchLit] at h
      by_cases hab : a = b
      · subst hab
        rw [if_pos (by simp)] at h
        intro c hc
        rcases List.mem_cons.mp hc with hc | hc
        · subst hc; exact hs c (List.mem_cons_self c bs)
        · exact ih bs h (fun x hx => hs x (List.mem_cons_of_mem a hx)) c hc
      · rw [if_neg (by simpa using hab)] at h
        exact absurd h (by simp)

theorem mem_takeWhile_pred (p : Char → Bool) (l : List Char) (c : Char)
    (h : c ∈ l.takeWhile p) : p c = true := by
  induction l with
  | nil => simp [List.takeWhile] at h
  | cons a as ih =>
    by_cases ha : p a
    · rw [List.takeWhile_cons_of_pos ha] at h
      rcases List.mem_cons.mp h with h | h
      · subst h; exact ha
      · exact ih h
    · rw [List.takeWhile_cons_of_neg ha] at h
      simp at h

theorem takeWhile_id_append (v rest : List Char)
    (hall : ∀ c ∈ v, isIdChar c = true)
    (hrest : ∀ c, rest.head? = some c → isIdChar c = false) :
    (v ++ rest).takeWhile isIdChar = v := by
  induction v with
  | nil =>
    cases rest with
    | nil => simp
    | cons c cs => simp [List.takeWhile, hrest c rfl]
  | cons c cs ih =>
    have hc := hall c (List.mem_cons_self c cs)
    simp [List.takeWhile, hc, ih fun x hx => hall x (List.mem_cons_of_mem c hx)]

/-- No alternative whose literal contains `.` can match inside a pure
id-character string, because `.` is not an id character. -/
theorem tryAlts_none_of_idchars (alts : List (List Char)) (s : List Char)
    (halts : ∀ a ∈ alts, '.' ∈ a) (hs : ∀ c ∈ s, isIdChar c = true) :
    tryAlts alts s = none := by
  induction alts with
  | nil => rfl
  | cons a rest ih =>
    have hrest := ih fun x hx => halts x (List.mem_cons_of_mem a hx)
    cases hm : matchLit a s with
    | none => simp [tryAlts, hm, hrest]
    | some r =>
      have hdot := matchLit_mem isIdChar a s r hm hs '.'
        (halts a (List.mem_cons_self a rest))
      simp [isIdChar] at hdot

theorem scanFor_none_of_idchars (alts : List (List Char)) (s : List Char)
    (halts : ∀ a ∈ alts, '.' ∈ a) (hs : ∀ c ∈ s, isIdChar c = true) :
    scanFor alts s = none := by
  induction s with
  | nil => rfl
  | cons c cs ih =>
    have h1 := tryAlts_none_of_idchars alts (c :: cs) halts hs
    simp [scanFor, h1, ih fun x hx => hs x (List.mem_cons_of_mem c hx)]

/-- Every capture the alternation produces is a non-empty run of id
characters. -/
theorem tryAlts_shape (alts : List (List Char)) (s cap : List Char)
    (h : tryAlts alts s = some cap) :
    cap ≠ [] ∧ ∀ c ∈ cap, isIdChar c = true := by
  induction alts with
  | nil => simp [tryAlts] at h
  | cons a rest ih =>
    cases hm : matchLit a s with
    | none =>
      simp only [tryAlts, hm] at h
      exact ih h
    | some r =>
      simp only [tryAlts, hm] at h
      by_cases hcap : r.takeWhile isIdChar = []
      · rw [if_pos hcap] at h; exact ih h
      · rw [if_neg hcap] at h
        obtain rfl : r.takeWhile isIdChar = cap := by simpa using h
        exact ⟨hcap, fun c hc => mem_takeWhile_pred isIdChar r c hc⟩

theorem scanFor_shape (alts : List (List Char)) (s cap : List Char)
    (h : scanFor alts s = some cap) :
    cap ≠ [] ∧ ∀ c ∈ cap, isIdChar c = true := by
  induction s with
  | nil => simp [scanFor] at h
  | cons c cs ih =>
    cases ht : tryAlts alts (c :: cs) with
    | some cap1 =>
      simp only [scanFor, ht] at h
      obtain rfl : cap1 = cap := by simpa using h
      exact tryAlts_shape alts (c :: cs) _ ht
    | none =>
      simp only [scanFor, ht] at h
      exact ih h

theorem extractVideoId_shape (url v : List Char)
    (h : extractVideoId url = some v) :
    v ≠ [] ∧ ∀ c ∈ v, isIdChar c = true := by
  cases h1 : scanFor pat1 url with
  | some cap =>
    simp only [extractVideoId, h1] at h
    obtain rfl : cap = v := by simpa using h
    exact scanFor_shape _ _ _ h1
  | none =>
    cases h2 : scanFor pat2 url with
    | some cap =>
      simp only [extractVideoId, h1, h2] at h
      obtain rfl : cap = v := by simpa using h
      exact scanFor_shape _ _ _ h2
    | none =>
      simp only [extractVideoId, h1, h2] at h
      exact scanFor_shape _ _ _ h

/-! ### Evaluation of the patterns on the platform URL forms -/

/-- Hypothesis on what may follow a video id in a URL: nothing, or a
character (such as `&` or `?`) that is not an id character, so the greedy
capture stops exactly at the id. -/
def stopsId (rest : List Char) : Prop :=
  ∀ c, rest.head? = some c → isIdChar c = false

theorem scanFor_pat1_watch (v rest : List Char) (hne : v ≠ [])
    (hall : ∀ c ∈ v, isIdChar c = true) (hrest : stopsId rest) :
    scanFor pat1 (watchStem ++ v ++ rest) = some v := by
  have htake : (v ++ rest).takeWhile isIdChar = v :=
    takeWhile_id_append v rest hall hrest
  simp only [watchStem_eq, List.cons_append, List.nil_append, List.append_assoc]
  simp [scanFor, tryAlts, matchLit, pat1, htake, hne]

theorem extract_watch (v rest : List Char) (hne : v ≠ [])
    (hall : ∀ c ∈ v, isIdChar c = true) (hrest : stopsId rest) :
    extractVideoId (watchStem ++ v ++ rest) = some v := by
  have hscan := scanFor_pat1_watch v rest hne hall hrest
  rw [List.append_assoc] at hscan
  simp [extractVideoId, hscan]

/-- `https://youtu.be/` — the short-link stem. -/
def shortStem : List Char := "https://youtu.be/".toList

theorem shortStem_eq :
    shortStem = ['h', 't', 't', 'p', 's', ':', '/', '/',
      'y', 'o', 'u', 't', 'u', '.', 'b', 'e', '/'] := rfl

theorem extract_short (v rest : List Char) (hne : v ≠ [])
    (hall : ∀ c ∈ v, isIdChar c = true) (hrest : stopsId rest) :
    extractVideoId (shortStem ++ v ++ rest) = some v := by
  have htake : (v ++ rest).takeWhile isIdChar = v :=
    takeWhile_id_append v rest hall hrest
  have hscan : scanFor pat1 (shortStem ++ v ++ rest) = some v := by
    simp only [shortStem_eq, List.cons_append, List.nil_append, List.append_assoc]
    simp [scanFor, tryAlts, matchLit, pat1, htake, hne]
  rw [List.append_assoc] at hscan
  simp [extractVideoId, hscan]

/-- `https://www.youtube.com/embed/` — the embed-form stem. -/
def embedStem : List Char := "https://www.youtube.com/embed/".toList

theorem embedStem_eq :
    embedStem = ['h', 't', 't', 'p', 's', ':', '/', '/', 'w', 'w', 'w', '.',
      'y', 'o', 'u', 't', 'u', 'b', 'e', '.', 'c', 'o', 'm', '/',
      'e', 'm', 'b', 'e', 'd', '/'] := rfl

theorem extract_embed (v rest : List Char) (hne : v ≠ [])
    (hall : ∀ c ∈ v, isIdChar c = true) (hrest : stopsId rest) :
    extractVideoId (embedStem ++ v ++ rest) = some v := by
  have htake : (v ++ rest).takeWhile isIdChar = v :=
    takeWhile_id_append v rest hall hrest
  have hscan : scanFor pat1 (embedStem ++ v ++ rest) = some v := by
    simp only [embedStem_eq, List.cons_append, List.nil_append, List.append_assoc]
    simp [scanFor, tryAlts, matchLit, pat1, htake, hne]
  rw [List.append_assoc] at hscan
  simp [extractVideoId, hscan]

/-- `https://www.youtube.com/shorts/` — the shorts-form stem. -/
def shortsStem : List Char := "https://www.youtube.com/shorts/".toList

theorem shortsStem_eq :
    shortsStem = ['h', 't', 't', 'p', 's', ':', '/', '/', 'w', 'w', 'w', '.',
      'y', 'o', 'u', 't', 'u', 'b', 'e', '.', 'c', 'o', 'm', '/',
      's', 'h', 'o', 'r', 't', 's', '/'] := rfl

theorem extract_shorts (v : List Char) (hne : v ≠ [])
    (hall : ∀ c ∈ v, isIdChar c = true) :
    extractVideoId (shortsStem ++ v) = some v := by
  have htake : v.takeWhile isIdChar = v := by
    simpa using takeWhile_id_append v [] hall (by intro c hc; simp at hc)
  have h1 : scanFor pat1 (shortsStem ++ v) = none := by
    have hnone : scanFor pat1 v = none :=
      scanFor_none_of_idchars pat1 v (by decide) hall
    simp only [shortsStem_eq, List.cons_append, List.nil_append]
    simp [scanFor, tryAlts, matchLit, pat1]
    simpa [pat1] using hnone
  have h2 : scanFor pat2 (shortsStem ++ v) = none := by
    have hnone : scanFor pat2 v = none :=
      scanFor_none_of_idchars pat2 v (by decide) hall
    simp only [shortsStem_eq, List.cons_append, List.nil_append]
    simp [scanFor, tryAlts, matchLit, pat2]
    simpa [pat2] using hnone
  have h3 : scanFor pat3 (shortsStem ++ v) = some v := by
    simp only [shortsStem_eq, List.cons_append, List.nil_append]
    simp [scanFor, tryAlts, matchLit, pat3, htake, hne]
  simp [extractVideoId, h1, h2, h3]

/-! ### Claim C9: idempotent normalization -/

/-- C9: for every video id (a non-empty run of id characters), the standard
watch URL — with or without extra query parameters — the `youtu.be`
short-link, the embed form and the shorts form all normalize to the same
canonical watch URL and the same extracted video id; and applying
`normalize_url` to its own normalized output yields the same pair again. -/
theorem claim_C9_normalize_idempotent (v q u : List Char) (hne : v ≠ [])
    (hall : ∀ c ∈ v, isIdChar c = true)
    (hu : u ∈ [watchStem ++ v, watchStem ++ v ++ '&' :: q,
               shortStem ++ v, embedStem ++ v, shortsStem ++ v]) :
    normalize_url u = (watchStem ++ v, some v)
    ∧ normalize_url (normalize_url u).1 = normalize_url u := by
  have hnilStop : stopsId ([] : List Char) := by intro c hc; simp at hc
  have hampStop : stopsId ('&' :: q) := by
    intro c hc
    simp only [List.head?] at hc
    obtain rfl : '&' = c := by simpa using hc
    decide
  have hwatch : normalize_url (watchStem ++ v) = (watchStem ++ v, some v) := by
    have h1 : extractVideoId (watchStem ++ v) = some v := by
      simpa using extract_watch v [] hne hall hnilStop
    simp [normalize_url, h1]
  have hmain : normalize_url u = (watchStem ++ v, some v) := by
    simp only [List.mem_cons, List.not_mem_nil, or_false] at hu
    rcases hu with rfl | rfl | rfl | rfl | rfl
    · exact hwatch
    · have h1 : extractVideoId (watchStem ++ v ++ '&' :: q) = some v :=
        extract_watch v ('&' :: q) hne hall hampStop
      rw [List.append_assoc] at h1
      simp [normalize_url, h1]
    · have h1 : extractVideoId (shortStem ++ v) = some v := by
        simpa using extract_short v [] hne hall hnilStop
      simp [normalize_url, h1]
    · have h1 : extractVideoId (embedStem ++ v) = some v := by
        simpa using extract_embed v [] hne hall hnilStop
      simp [normalize_url, h1]
    · have h1 : extractVideoId (shortsStem ++ v) = some v :=
        extract_shorts v hne hall
      simp [normalize_url, h1]
  refine ⟨hmain, ?_⟩
  rw [hmain]
  exact hwatch

/-- Witness for C9: the short-link and watch forms of a concrete id. -/
theorem claim_C9_witness :
    normalize_url ("https://youtu.be/".toList ++ "dQw4w9WgXcQ".toList)
      = ("https://www.youtube.com/watch?v=".toList ++ "dQw4w9WgXcQ".toList,
         some "dQw4w9WgXcQ".toList)
    ∧ normalize_url
        (normalize_url ("https://youtu.be/".toList ++ "dQw4w9WgXcQ".toList)).1
      = normalize_url ("https://youtu.be/".toList ++ "dQw4w9WgXcQ".toList) :=
  claim_C9_normalize_idempotent "dQw4w9WgXcQ".toList "t=42".toList
    ("https://youtu.be/".toList ++ "dQw4w9WgXcQ".toList)
    (by decide) (by decide) (by simp [shortStem, watchStem])

/-! ### The normalized form of a URL without a video id never collides with
a canonical watch URL -/

theorem toLower_eq_qmark {c : Char} (h : Char.toLower c = '?') : c = '?' := by
  simp only [Char.toLower] at h
  split at h
  · next hrange =>
    exfalso
    obtain ⟨h1, h2⟩ := hrange
    generalize hgen : Char.toNat c = n at h h1 h2
    interval_cases n <;> exact absurd h (by decide)
  · exact h

theorem scheme_no_qmark (url : List Char) : '?' ∉ (parseScheme url).1 := by
  simp only [parseScheme]
  split
  · next hok =>
    intro hmem
    obtain ⟨c, hc, hlow⟩ := List.mem_map.mp hmem
    obtain rfl : c = '?' := toLower_eq_qmark hlow
    have hall : (url.takeWhile (fun c => c != ':')).all isSchemeChar := by
      simp only [Bool.and_eq_true] at hok
      exact hok.2
    have := List.all_eq_true.mp hall '?' hc
    simp [isSchemeChar] at this
  · simp

theorem netloc_no_qmark (rest : List Char) : '?' ∉ (netlocSplit rest).1 := by
  simp only [netlocSplit]
  split
  · intro hmem
    have := mem_takeWhile_pred _ _ _ hmem
    simp at this
  · simp

theorem path_no_qmark (url : List Char) : '?' ∉ (parseUrl url).path := by
  intro hmem
  have := mem_takeWhile_pred _ _ _ hmem
  simp at this

/-- The canonical watch stem contains a question mark, so a constructed
`scheme://netloc.lower()path` normalized form (which strips the query) can
never be a canonical watch URL. -/
theorem constructed_ne_watch (url v : List Char) :
    (parseUrl url).scheme ++ [':', '/', '/']
      ++ ((parseUrl url).netloc.map Char.toLower) ++ (parseUrl url).path
      ≠ watchStem ++ v := by
  intro heq
  have hq : '?' ∈ watchStem ++ v := by
    rw [watchStem_eq]
    simp
  rw [← heq] at hq
  rcases List.mem_append.mp hq with hq | hq
  · rcases List.mem_append.mp hq with hq | hq
    · rcases List.mem_append.mp hq with hq | hq
      · exact scheme_no_qmark url hq
      · simp at hq
    · obtain ⟨c, hc, hlow⟩ := List.mem_map.mp hq
      obtain rfl : c = '?' := toLower_eq_qmark hlow
      have : '?' ∉ (parseUrl url).netloc := by
        show '?' ∉ (netlocSplit (parseScheme url).2).1
        exact netloc_no_qmark _
      exact this hc
  · exact path_no_qmark url hq

/-- When `normalize_url` extracts a video id, the normalized URL is the
canonical watch URL for that id, which is a non-empty run of id
characters. -/
theorem normalize_vid_shape (u v : List Char)
    (h : (normalize_url u).2 = some v) :
    (normalize_url u).1 = watchStem ++ v ∧ v ≠ [] ∧ ∀ c ∈ v, isIdChar c = true := by
  cases hex : extractVideoId u with
  | some w =>
    have hw : w = v := by simpa [normalize_url, hex] using h
    subst hw
    obtain ⟨h1, h2⟩ := extractVideoId_shape u w hex
    exact ⟨by simp [normalize_url, hex], h1, h2⟩
  | none =>
    exfalso
    simp only [normalize_url, hex] at h
    split at h <;> simp at h

/-- A URL with no extractable video id can never normalize to a canonical
watch URL of a well-formed id: either its normalized form is rebuilt without
any `?`, or it is the URL itself, on which the extraction would have
succeeded. -/
theorem normalize_none_ne_watch (u v : List Char)
    (hv : (normalize_url u).2 = none) (hne : v ≠ [])
    (hall : ∀ c ∈ v, isIdChar c = true) :
    (normalize_url u).1 ≠ watchStem ++ v := by
  cases hex : extractVideoId u with
  | some w => simp [normalize_url, hex] at hv
  | none =>
    by_cases hc : (parseUrl u).netloc ≠ [] ∧ (parseUrl u).path ≠ []
    · have h1 : (normalize_url u).1 = (parseUrl u).scheme ++ [':', '/', '/']
          ++ ((parseUrl u).netloc.map Char.toLower) ++ (parseUrl u).path := by
        simp [normalize_url, hex, hc]
      rw [h1]
      exact constructed_ne_watch u v
    · have h1 : (normalize_url u).1 = u := by
        simp [normalize_url, hex, hc]
      rw [h1]
      intro heq
      subst heq
      have : extractVideoId (watchStem ++ v) = some v := by
        simpa using extract_watch v [] hne hall (by intro c hc'; simp at hc')
      rw [this] at hex
      exact absurd hex (by simp)

/-! ### Ledger invariants -/

/-- Every row stores exactly its URL's normalization (true of every row
`add_url` inserts). -/
def WfDb (db : List UrlRow) : Prop :=
  ∀ r ∈ db, r.normalized = (normalize_url r.url).1 ∧ r.videoId = (normalize_url r.url).2

/-- The `used_urls` uniqueness invariant: no two rows share a normalized URL
and no two rows share a video id. -/
def RowsDistinct (db : List UrlRow) : Prop :=
  db.Pairwise fun r1 r2 =>
    r1.normalized ≠ r2.normalized ∧ ∀ v, r1.videoId = some v → r2.videoId ≠ some v

theorem wfDb_add (db : List UrlRow) (u : List Char) (h : WfDb db) :
    WfDb (add_url db u).2 := by
  unfold add_url
  split
  · exact h
  · intro r hr
    rcases List.mem_append.mp hr with hr | hr
    · exact h r hr
    · obtain rfl : r = rowFor u := by simpa using hr
      exact ⟨rfl, rfl⟩

theorem add_url_fst (db : List UrlRow) (u : List Char) :
    (add_url db u).1 = !(urlBlocked db u) := by
  unfold add_url
  split <;> simp_all

/-- Appending the row `add_url` inserts for `u'` extends the blocking
condition of any later URL `u` by exactly "is `u` equivalent to `u'`". -/
theorem urlBlocked_append (db : List UrlRow) (u' u : List Char) :
    urlBlocked (db ++ [rowFor u']) u = (urlBlocked db u || equivUrl u' u) := by
  cases hv : (normalize_url u).2 with
  | some v =>
    simp only [urlBlocked, hv, List.any_append, List.any_cons, List.any_nil,
      Bool.or_false]
    congr 1
    cases hv' : (normalize_url u').2 with
    | some a => simp [rowFor, equivUrl, hv, hv']
    | none => simp [rowFor, equivUrl, hv, hv']
  | none =>
    simp only [urlBlocked, hv, List.any_append, List.any_cons, List.any_nil,
      Bool.or_false]
    congr 1
    cases hv' : (normalize_url u').2 with
    | some a =>
      have hsh := normalize_vid_shape u' a hv'
      have hneq : (normalize_url u).1 ≠ watchStem ++ a :=
        normalize_none_ne_watch u a hv hsh.2.1 hsh.2.2
      have hlhs : (rowFor u').normalized = watchStem ++ a := by
        simp [rowFor, hsh.1]
      rw [hlhs]
      simp only [equivUrl, hv, hv']
      rw [beq_eq_false_iff_ne]
      exact fun hcontra => hneq hcontra.symm
    | none => simp [rowFor, equivUrl, hv, hv']

/-- Equivalent URLs have the same blocking condition against any table. -/
theorem equiv_blocked_congr (db : List UrlRow) (u' u : List Char)
    (h : equivUrl u' u = true) : urlBlocked db u' = urlBlocked db u := by
  cases hv' : (normalize_url u').2 with
  | some a =>
    cases hv : (normalize_url u).2 with
    | some b =>
      simp only [equivUrl, hv', hv] at h
      obtain rfl : a = b := by simpa using h
      simp [urlBlocked, hv', hv]
    | none => simp [equivUrl, hv', hv] at h
  | none =>
    cases hv : (normalize_url u).2 with
    | some b => simp [equivUrl, hv', hv] at h
    | none =>
      simp only [equivUrl, hv', hv] at h
      have heq : (normalize_url u').1 = (normalize_url u).1 := by simpa using h
      simp [urlBlocked, hv', hv, heq]

/-- After a sequence of `add_url` calls, a URL is blocked exactly when it was
blocked before or some call in the sequence was equivalent to it. -/
theorem urlBlocked_runAdds (u : List Char) (us : List (List Char))
    (db : List UrlRow) :
    urlBlocked (runAdds db us) u
      = (urlBlocked db u || us.any fun u' => equivUrl u' u) := by
  induction us generalizing db with
  | nil => simp [runAdds]
  | cons u' us ih =>
    simp only [runAdds, List.any_cons]
    by_cases hb : urlBlocked db u'
    · have hdb : (add_url db u').2 = db := by simp [add_url, hb]
      rw [hdb, ih]
      by_cases he : equivUrl u' u
      · have hbu : urlBlocked db u = true := by
          rw [← equiv_blocked_congr db u' u he]; exact hb
        simp [he, hbu]
      · simp [he]
    · have hdb : (add_url db u').2 = db ++ [rowFor u'] := by
        simp [add_url, hb]
      rw [hdb, ih, urlBlocked_append]
      simp [Bool.or_assoc]

theorem urlBlocked_nil (u : List Char) : urlBlocked [] u = false := by
  cases hv : (normalize_url u).2 <;> simp [urlBlocked, hv]

/-- A blocked URL is reported used by `has_url`. -/
theorem has_url_of_blocked (db : List UrlRow) (w : List Char)
    (h : urlBlocked db w = true) : has_url db w = true := by
  cases hv : (normalize_url w).2 with
  | some v =>
    simp only [urlBlocked, hv] at h
    simp [has_url, hv, h]
  | none =>
    simp only [urlBlocked, hv] at h
    have hany : db.any
        (fun r => r.normalized == (normalize_url w).1 || r.url == w) = true := by
      obtain ⟨r, hr, hpr⟩ := List.any_eq_true.mp h
      exact List.any_eq_true.mpr ⟨r, hr, by simp [hpr]⟩
    simp [has_url, hv, hany]

/-- `add_url` preserves the uniqueness invariant: the transaction's
check-then-insert can never create a second row with the same video id or
the same normalized URL. -/
theorem rowsDistinct_add (db : List UrlRow) (u : List Char)
    (hwf : WfDb db) (hd : RowsDistinct db) : RowsDistinct (add_url db u).2 := by
  unfold add_url
  split
  · exact hd
  · next hblk =>
    unfold RowsDistinct
    rw [List.pairwise_append]
    refine ⟨hd, by simp, ?_⟩
    intro r hr r' hr'
    obtain rfl : r' = rowFor u := by simpa using hr'
    obtain ⟨hwf1, hwf2⟩ := hwf r hr
    cases hv : (normalize_url u).2 with
    | some v =>
      have hsh := normalize_vid_shape u v hv
      have hnotv : r.videoId ≠ some v := by
        simp only [urlBlocked, hv] at hblk
        intro hcontra
        exact hblk (List.any_eq_true.mpr ⟨r, hr, by simp [hcontra]⟩)
      constructor
      · rw [hwf1]
        have hrow : (rowFor u).normalized = watchStem ++ v := by
          simp [rowFor, hsh.1]
        rw [hrow]
        cases hrv : (normalize_url r.url).2 with
        | some a =>
          have hsha := normalize_vid_shape r.url a hrv
          rw [hsha.1]
          intro hcontra
          have : a = v := List.append_cancel_left hcontra
          subst this
          exact hnotv (hwf2.trans hrv)
        | none => exact normalize_none_ne_watch r.url v hrv hsh.2.1 hsh.2.2
      · intro v'' hr1 hr2
        have hrowv : (rowFor u).videoId = some v := by simp [rowFor, hv]
        rw [hrowv] at hr2
        obtain rfl : v = v'' := by simpa using hr2
        exact hnotv hr1
    | none =>
      have hnotn : r.normalized ≠ (normalize_url u).1 := by
        simp only [urlBlocked, hv] at hblk
        intro hcontra
        exact hblk (List.any_eq_true.mpr ⟨r, hr, by simp [hcontra]⟩)
      refine ⟨by simpa [rowFor] using hnotn, ?_⟩
      intro v'' _ hcontra
      simp [rowFor, hv] at hcontra

/-- Both ledger invariants hold in every state reachable by `add_url`. -/
theorem runAdds_inv (us : List (List Char)) (db : List UrlRow)
    (hwf : WfDb db) (hd : RowsDistinct db) :
    WfDb (runAdds db us) ∧ RowsDistinct (runAdds db us) := by
  induction us generalizing db with
  | nil => exact ⟨hwf, hd⟩
  | cons u us ih =>
    exact ih (add_url db u).2 (wfDb_add db u hwf) (rowsDistinct_add db u hwf hd)

/-! ### Claim C1: at-most-once URL consumption -/

/-- C1: over any sequence of `add_url` calls on an initially empty table,
a call returns true exactly when no earlier call was equivalent to it (same
extracted video id, or — when no id is extractable — same normalized URL),
so among equivalent calls exactly the first returns true; once an equivalent
call has been recorded, `has_url` answers true for every equivalent form;
and in every reachable table state no two rows share a normalized URL or a
video id. -/
theorem claim_C1_at_most_once_url (us : List (List Char)) (u w x : List Char)
    (hmem : x ∈ us) (hequiv : equivUrl x w = true) :
    ((add_url (runAdds [] us) u).1 = true ↔ ∀ y ∈ us, equivUrl y u = false)
    ∧ has_url (runAdds [] us) w = true
    ∧ RowsDistinct (runAdds [] us) := by
  refine ⟨?_, ?_, ?_⟩
  · rw [add_url_fst, urlBlocked_runAdds, urlBlocked_nil]
    simp [List.any_eq_false]
  · apply has_url_of_blocked
    rw [urlBlocked_runAdds, urlBlocked_nil]
    simp only [Bool.false_or]
    exact List.any_eq_true.mpr ⟨x, hmem, hequiv⟩
  · exact (runAdds_inv us [] (fun r hr => by simp at hr)
      (by simp [RowsDistinct])).2

/-- Witness for C1: after consuming the watch form of id `abc`, adding the
short-link form is refused, the embed form reads as used, and the table
satisfies the uniqueness invariant. -/
theorem claim_C1_witness :
    ((add_url (runAdds [] ["https://www.youtube.com/watch?v=abc".toList])
        "https://youtu.be/abc".toList).1 = true
      ↔ ∀ y ∈ ["https://www.youtube.com/watch?v=abc".toList],
          equivUrl y "https://youtu.be/abc".toList = false)
    ∧ has_url (runAdds [] ["https://www.youtube.com/watch?v=abc".toList])
        "https://www.youtube.com/embed/abc".toList = true
    ∧ RowsDistinct (runAdds [] ["https://www.youtube.com/watch?v=abc".toList]) :=
  claim_C1_at_most_once_url ["https://www.youtube.com/watch?v=abc".toList]
    "https://youtu.be/abc".toList
    "https://www.youtube.com/embed/abc".toList
    "https://www.youtube.com/watch?v=abc".toList
    (by simp) (by decide)

/-! ## Ledger transactions under storage errors (hash_manager.py:225-251,
319-352)

SQLite semantics: an open transaction works on a pending view; `COMMIT`
publishes it, `ROLLBACK` discards it.  `add_hash` and `add_url` run
`BEGIN IMMEDIATE; SELECT; INSERT; COMMIT` inside `try`, and
`except sqlite3.Error: rollback(); return False`.  The point at which the
storage layer raises is an oracle. -/

/-- A connection: the committed table plus the open transaction's pending
view (if any). -/
structure Conn (Row : Type) where
  committed : List Row
  pending : Option (List Row)

/-- The data a statement sees: the pending view inside a transaction. -/
def txnView {Row : Type} (c : Conn Row) : List Row :=
  c.pending.getD c.committed

/-- `BEGIN IMMEDIATE TRANSACTION`. -/
def beginTxn {Row : Type} (c : Conn Row) : Conn Row :=
  { c with pending := some c.committed }

/-- `INSERT` inside the open transaction. -/
def insertTxn {Row : Type} (c : Conn Row) (r : Row) : Conn Row :=
  { c with pending := some (txnView c ++ [r]) }

/-- `COMMIT`: publish the pending view. -/
def commitTxn {Row : Type} (c : Conn Row) : Conn Row :=
  match c.pending with
  | some d => { committed := d, pending := none }
  | none => c

/-- `ROLLBACK`: discard the pending view. -/
def rollbackTxn {Row : Type} (c : Conn Row) : Conn Row :=
  { c with pending := none }

/-- Where (if anywhere) the storage layer raises `sqlite3.Error` during the
check-and-insert transaction. -/
inductive TxnErr where
  | atBegin
  | atCheck
  | atInsert
  | atCommit
  | ok
deriving DecidableEq

/-- The `try BEGIN IMMEDIATE; SELECT; (rollback/return False on a hit);
INSERT; COMMIT except sqlite3.Error: rollback(); return False` shape shared
by `add_hash` (hash_manager.py:225-251) and `add_url` (hash_manager.py:
319-352).  `already` is the SELECT's existence check over the data visible
inside the transaction; `row` is what the INSERT writes. -/
def checkAndInsert {Row : Type} (e : TxnErr) (already : List Row → Bool)
    (row : Row) (c : Conn Row) : Bool × Conn Row :=
  if e = TxnErr.atBegin then (false, rollbackTxn c)
  else
    let c1 := beginTxn c
    if e = TxnErr.atCheck then (false, rollbackTxn c1)
    else if already (txnView c1) then (false, rollbackTxn c1)
    else if e = TxnErr.atInsert then (false, rollbackTxn c1)
    else
      let c2 := insertTxn c1 row
      if e = TxnErr.atCommit then (false, rollbackTxn c2)
      else (true, commitTxn c2)

/-- `HashManager.add_url` with its transaction and error handling. -/
def add_url_tx (e : TxnErr) (c : Conn UrlRow) (u : List Char) :
    Bool × Conn UrlRow :=
  checkAndInsert e (fun tbl => urlBlocked tbl u) (rowFor u) c

/-- `HashManager.add_hash` with its transaction and error handling; the
`audio_hashes` check is by primary key `hash`. -/
def add_hash_tx (e : TxnErr) (c : Conn (List Char)) (h : List Char) :
    Bool × Conn (List Char) :=
  checkAndInsert e (fun tbl => tbl.any fun x => x == h) h c

theorem checkAndInsert_err {Row : Type} (e : TxnErr) (already : List Row → Bool)
    (row : Row) (c : Conn Row) (hp : c.pending = none) (he : e ≠ TxnErr.ok) :
    (checkAndInsert e already row c).1 = false
    ∧ (checkAndInsert e already row c).2.committed = c.committed
    ∧ (checkAndInsert e already row c).2.pending = none := by
  cases e
  case ok => exact absurd rfl he
  all_goals
    simp [checkAndInsert, beginTxn, insertTxn, commitTxn, rollbackTxn, txnView, hp] <;>
    split <;> simp

/-- On the error-free path the transactional `add_url` coincides with the
pure atomic check-and-insert `add_url`. -/
theorem add_url_tx_ok (c : Conn UrlRow) (u : List Char) (hp : c.pending = none) :
    (add_url_tx TxnErr.ok c u).1 = (add_url c.committed u).1
    ∧ (add_url_tx TxnErr.ok c u).2.committed = (add_url c.committed u).2
    ∧ (add_url_tx TxnErr.ok c u).2.pending = none := by
  by_cases hb : urlBlocked c.committed u <;>
    simp [add_url_tx, checkAndInsert, add_url, beginTxn, insertTxn, commitTxn,
      rollbackTxn, txnView, hp, hb]

/-! ### Claim C4: storage errors fail closed and roll back -/

/-- C4: if the storage layer raises at any point of the check-and-insert
transaction of `add_url` or `add_hash` — at `BEGIN`, during the existence
check, during the `INSERT`, or at `COMMIT` — the operation returns false
(reported as "already used") and the rollback leaves the `used_urls` and
`audio_hashes` tables exactly as they were, with no transaction left open
and no partial commit. -/
theorem claim_C4_fail_closed_rollback (e : TxnErr) (cu : Conn UrlRow)
    (ch : Conn (List Char)) (u h : List Char)
    (hpu : cu.pending = none) (hph : ch.pending = none) (he : e ≠ TxnErr.ok) :
    (add_url_tx e cu u).1 = false
    ∧ (add_url_tx e cu u).2.committed = cu.committed
    ∧ (add_url_tx e cu u).2.pending = none
    ∧ (add_hash_tx e ch h).1 = false
    ∧ (add_hash_tx e ch h).2.committed = ch.committed
    ∧ (add_hash_tx e ch h).2.pending = none := by
  obtain ⟨h1, h2, h3⟩ := checkAndInsert_err e (fun tbl => urlBlocked tbl u)
    (rowFor u) cu hpu he
  obtain ⟨h4, h5, h6⟩ := checkAndInsert_err e (fun tbl => tbl.any fun x => x == h)
    h ch hph he
  exact ⟨h1, h2, h3, h4, h5, h6⟩

/-- Witness for C4: a commit-time error against concrete one-row tables. -/
theorem claim_C4_witness :
    (add_url_tx TxnErr.atCommit ⟨[], none⟩ "https://youtu.be/abc".toList).1 = false
    ∧ (add_url_tx TxnErr.atCommit ⟨[], none⟩
        "https://youtu.be/abc".toList).2.committed = ([] : List UrlRow)
    ∧ (add_url_tx TxnErr.atCommit ⟨[], none⟩
        "https://youtu.be/abc".toList).2.pending = none
    ∧ (add_hash_tx TxnErr.atCommit ⟨[['a']], none⟩ ['b']).1 = false
    ∧ (add_hash_tx TxnErr.atCommit ⟨[['a']], none⟩ ['b']).2.committed = [['a']]
    ∧ (add_hash_tx TxnErr.atCommit ⟨[['a']], none⟩ ['b']).2.pending = none :=
  claim_C4_fail_closed_rollback TxnErr.atCommit ⟨[], none⟩ ⟨[['a']], none⟩
    "https://youtu.be/abc".toList ['b'] rfl rfl (by decide)

end RadioStation
